import Mathlib

/-!
Shallow embedding of `src/index.ts` of the repository
`hasborisjohnsonresignedyet`: a Pulumi program that crawls the local `www`
directory and, per regular file, declares an S3 bucket object; around those
it declares a fixed skeleton of resources (content bucket, logging bucket,
Route53 zone, a `us-east-1` provider alias, an ACM certificate, its DNS
validation record and validation completion, a CloudFront distribution and
an apex alias record).

The filesystem is modelled as a `Forest`: the listing of a directory in the
order `fs.readdirSync` returns it, where each entry is a regular file, a
directory with its own listing, or a `special` entry whose
(symlink-following) `fs.statSync` reports neither a regular file nor a
directory.  Deferred Pulumi output values are modelled symbolically by
`SVal`.
-/

/-- A directory listing in `fs.readdirSync` order.  `file` is an entry whose
`fs.statSync` reports `isFile`, `dir` one reporting `isDirectory` (with its
own listing), and `special` one reporting neither (socket, FIFO, ...). -/
inductive Forest where
  | nil : Forest
  | file (name : String) (rest : Forest) : Forest
  | dir (name : String) (sub : Forest) (rest : Forest) : Forest
  | special (name : String) (rest : Forest) : Forest
  deriving DecidableEq

/-- Embedding of `crawlDirectory` (src/index.ts lines 9-21): for each entry
of `dir`, form `filePath = dir + "/" + name`; recurse into directories,
invoke the callback on regular files, and do nothing for other entries.
The result is the list of `filePath` arguments passed to the callback, in
call order. -/
def crawlDirectory (dir : String) : Forest → List String
  | .nil => []
  | .file name rest => (dir ++ "/" ++ name) :: crawlDirectory dir rest
  | .dir name sub rest =>
      crawlDirectory (dir ++ "/" ++ name) sub ++ crawlDirectory dir rest
  | .special _ rest => crawlDirectory dir rest

/-- Number of regular files in a forest. -/
def countFiles : Forest → Nat
  | .nil => 0
  | .file _ rest => countFiles rest + 1
  | .dir _ sub rest => countFiles sub + countFiles rest
  | .special _ rest => countFiles rest

/-- The relative keys of the regular files of a forest, in crawl order:
the file name, prefixed with `name + "/"` for each enclosing directory. -/
def keysOf : Forest → List String
  | .nil => []
  | .file name rest => name :: keysOf rest
  | .dir name sub rest => (keysOf sub).map (fun k => name ++ "/" ++ k) ++ keysOf rest
  | .special _ rest => keysOf rest

/-- The relative paths of the regular files of a forest, as segment lists,
in crawl order. -/
def segPathsOf : Forest → List (List String)
  | .nil => []
  | .file name rest => [name] :: segPathsOf rest
  | .dir name sub rest => (segPathsOf sub).map (fun p => name :: p) ++ segPathsOf rest
  | .special _ rest => segPathsOf rest

/-- Joining path segments with forward slashes and no leading separator:
the spec's description of a relative storage key. -/
def joinSegs : List String → String
  | [] => ""
  | [n] => n
  | n :: rest@(_ :: _) => n ++ "/" ++ joinSegs rest

/-- The names of the entries at the top level of a forest, in listing order. -/
def levelNames : Forest → List String
  | .nil => []
  | .file n rest => n :: levelNames rest
  | .dir n _ rest => n :: levelNames rest
  | .special n rest => n :: levelNames rest

/-- All entry names are free of the `/` character, and every directory's
listing has pairwise-distinct names (filesystem guarantees). -/
def goodChain : Forest → Bool
  | .nil => true
  | .file n rest => n.data.all (fun c => c ≠ '/') && goodChain rest
  | .dir n sub rest =>
      n.data.all (fun c => c ≠ '/') && decide ((levelNames sub).Nodup)
        && goodChain sub && goodChain rest
  | .special n rest => n.data.all (fun c => c ≠ '/') && goodChain rest

/-- `goodChain` together with distinctness of the top-level names. -/
def good (f : Forest) : Bool := decide ((levelNames f).Nodup) && goodChain f

/-- Every entry name is nonempty (a filesystem guarantee). -/
def nonemptyNames : Forest → Bool
  | .nil => true
  | .file n rest => (n ≠ "" : Bool) && nonemptyNames rest
  | .dir n sub rest => (n ≠ "" : Bool) && nonemptyNames sub && nonemptyNames rest
  | .special n rest => (n ≠ "" : Bool) && nonemptyNames rest

/-- JavaScript `String.prototype.replace` with a string pattern on character
lists: replace the first occurrence of `pat` by `repl`, leaving the string
unchanged when `pat` does not occur. -/
def replaceFirstAux (pat repl : List Char) : List Char → List Char
  | [] => if pat = [] then repl else []
  | c :: rest =>
      if pat.isPrefixOf (c :: rest) then repl ++ (c :: rest).drop pat.length
      else c :: replaceFirstAux pat repl rest

/-- JavaScript `s.replace(pat, repl)` for a plain string pattern. -/
def jsReplaceFirst (s pat repl : String) : String :=
  ⟨replaceFirstAux pat.data repl.data s.data⟩

theorem replaceFirstAux_prefix (pat r : List Char) (h : pat ≠ []) :
    replaceFirstAux pat [] (pat ++ r) = r := by
  match pat, h with
  | q :: qs, _ =>
    have hpre : (q :: qs).isPrefixOf ((q :: qs) ++ r) = true := by
      rw [List.isPrefixOf_iff_prefix]
      exact List.prefix_append _ _
    show replaceFirstAux (q :: qs) [] (q :: (qs ++ r)) = r
    rw [replaceFirstAux]
    simp only [List.cons_append] at hpre
    rw [if_pos hpre]
    simp [List.drop_left (q :: qs) r]

/-- Removing the leading `pat` with JavaScript first-occurrence replace. -/
theorem jsReplaceFirst_prefix (pat r : String) (h : pat ≠ "") :
    jsReplaceFirst (pat ++ r) pat "" = r := by
  have hd : pat.data ≠ [] := by
    intro hnil
    exact h (String.ext hnil)
  apply String.ext
  show replaceFirstAux pat.data "".data (pat ++ r).data = r.data
  rw [String.data_append]
  have : ("" : String).data = [] := rfl
  rw [this]
  exact replaceFirstAux_prefix pat.data r.data hd

/-! ## The `mime` package's `getType` -/

/-- The characters of a string after its last occurrence of any character
failing `keep` (the whole string when every character passes). -/
def afterLast (keep : Char → Bool) (l : List Char) : List Char :=
  (l.reverse.takeWhile keep).reverse

/-- Content-type table of the npm `mime` package (`mime-db`), restricted to
the extensions relevant to a static site; keys are lowercase extensions. -/
def mimeTypes : List (String × String) :=
  [("html", "text/html"), ("htm", "text/html"), ("css", "text/css"),
   ("js", "application/javascript"), ("json", "application/json"),
   ("png", "image/png"), ("jpg", "image/jpeg"), ("jpeg", "image/jpeg"),
   ("gif", "image/gif"), ("svg", "image/svg+xml"),
   ("ico", "image/vnd.microsoft.icon"), ("txt", "text/plain"),
   ("xml", "application/xml"), ("pdf", "application/pdf"),
   ("webp", "image/webp"), ("woff", "font/woff"), ("woff2", "font/woff2")]

/-- The lowercased basename of a path (`path.replace(/^.*[/\\]/, '').toLowerCase()`
from the `mime` package). -/
def mimeBasename (p : String) : String :=
  ⟨(afterLast (fun c => c ≠ '/' && c ≠ '\\') p.data).map Char.toLower⟩

/-- The extension candidate (`last.replace(/^.*\./, '')` from the `mime`
package): the basename itself when it has no dot. -/
def mimeExt (p : String) : String :=
  let base := mimeBasename p
  if ('.' ∈ base.data) then ⟨afterLast (fun c => c ≠ '.') base.data⟩ else base

/-- Modelled from the npm `mime` package (v2) used by src/index.ts:
`getType(path)` looks the extension of the lowercased basename up in the
type table; it answers `null` (here `none`) when the lookup misses or when
the basename has no proper dot-separated extension (`hasDot`) while the
path contains a separator (`hasPath`). -/
def mimeHasDot (p : String) : Bool :=
  (mimeExt p).length < (mimeBasename p).length - 1

def mimeHasPath (p : String) : Bool :=
  (mimeBasename p).length < p.length

def mimeGetType (p : String) : Option String :=
  if mimeHasDot p || !mimeHasPath p then mimeTypes.lookup (mimeExt p) else none

/-- JavaScript `x || undefined` on a nullable string: `undefined` (here
`none`) when `x` is `null` or the empty string. -/
def jsOrUndefined : Option String → Option String
  | none => none
  | some s => if s = "" then none else some s

/-! ## Resource declarations -/

/-- The fixed resources declared by src/index.ts, in declaration order. -/
inductive Res where
  | borisBucket | logsBucket | hostedZone | eastRegion
  | certificate | certValidationRecord | certValidation | cdn | apexRecord
  deriving DecidableEq

/-- A symbolic string-valued expression appearing in a declaration: a
literal, a deferred output property of another resource (`SVal.out r f` is
`r.f` in the source), the JavaScript default string conversion of a
resource handle (as in a template literal `${r}`), or concatenation. -/
inductive SVal where
  | lit (s : String)
  | out (r : Res) (field : String)
  | jsToString (r : Res)
  | cat (a b : SVal)
  deriving DecidableEq

/-- One entry of a Route53 record's `aliases` list. -/
structure RecordAlias where
  aliasName : SVal
  aliasZoneId : SVal
  evaluateTargetHealth : Bool
  deriving DecidableEq

/-- The argument object of the CloudFront distribution (src/index.ts 87-156). -/
structure Distribution where
  enabled : Bool
  aliases : List String
  originId : SVal
  originDomainName : SVal
  originProtocolPolicy : String
  defaultRootObject : String
  targetOriginId : SVal
  viewerProtocolPolicy : String
  minTtl : Nat
  defaultTtl : Nat
  maxTtl : Nat
  priceClass : String
  errorCode : Nat
  responseCode : Nat
  responsePagePath : String
  acmCertificateArn : SVal
  sslSupportMethod : String
  loggingBucket : SVal
  loggingIncludeCookies : Bool
  loggingPrefixVal : SVal
  deriving DecidableEq

/-- The typed payload of a resource declaration. -/
inductive DeclBody where
  | bucket (acl : String) (bucketName : Option String) (indexDocument : Option String)
  | bucketObject (key : String) (acl : String) (bucket : Res)
      (contentType : Option String) (source : String)
  | provider (region : String)
  | zone (zoneName : String)
  | certificate (domainName : String) (subjectAlternativeNames : List String)
      (validationMethod : String) (tagName : String)
  | record (recName : SVal) (zoneId : SVal) (recType : SVal)
      (records : List SVal) (ttl : Option Nat) (aliases : List RecordAlias)
  | certificateValidation (certificateArn : SVal) (validationRecordFqdns : List SVal)
  | distribution (dist : Distribution)
  deriving DecidableEq

/-- One resource declaration registered with the provisioning engine:
its identity among the fixed resources (`none` for per-file objects), its
Pulumi logical name, its payload, and its explicit provider and parent
options. -/
structure Decl where
  rid : Option Res
  declName : String
  body : DeclBody
  provider : Option Res
  parent : Option Res
  deriving DecidableEq

def website : String := "hasborisjohnsonresignedyet.com"

def cacheTimeout : Nat := 30

/-- `path.join(process.cwd(), "www")` (src/index.ts line 31). -/
def wwwDir (cwd : String) : String := cwd ++ "/" ++ "www"

/-- src/index.ts lines 23-29. -/
def borisBucketDecl : Decl :=
  { rid := some .borisBucket, declName := "borisBucket",
    body := .bucket "public-read" (some website) (some "index.html"),
    provider := none, parent := none }

/-- The per-file object declaration (src/index.ts lines 35-48): the name
and key are `filePath.replace(wwwDir + "/", "")`, the content type is
`mime.getType(filePath) || undefined`, and the parent is the bucket. -/
def objectDecl (w filePath : String) : Decl :=
  let relativeFilePath := jsReplaceFirst filePath (w ++ "/") ""
  { rid := none, declName := relativeFilePath,
    body := .bucketObject relativeFilePath "public-read" .borisBucket
      (jsOrUndefined (mimeGetType filePath)) filePath,
    provider := none, parent := some .borisBucket }

/-- src/index.ts lines 51-53. -/
def logsBucketDecl : Decl :=
  { rid := some .logsBucket, declName := "boriswebsiteRequestLogs",
    body := .bucket "private" none none, provider := none, parent := none }

/-- src/index.ts lines 55-57. -/
def hostedZoneDecl : Decl :=
  { rid := some .hostedZone, declName := "boriswebsite-hotedzone",
    body := .zone website, provider := none, parent := none }

/-- src/index.ts lines 59-61. -/
def eastRegionDecl : Decl :=
  { rid := some .eastRegion, declName := "east",
    body := .provider "us-east-1", provider := none, parent := none }

/-- src/index.ts lines 63-70. -/
def certificateDecl : Decl :=
  { rid := some .certificate, declName := "cert",
    body := .certificate website ["*." ++ website] "DNS" "piers.dev",
    provider := some .eastRegion, parent := none }

/-- src/index.ts lines 72-78. -/
def certValidationRecordDecl : Decl :=
  { rid := some .certValidationRecord, declName := "certValidationRecord",
    body := .record (.out .certificate "domainValidationOptions[0].resourceRecordName")
      (.out .hostedZone "zoneId")
      (.out .certificate "domainValidationOptions[0].resourceRecordType")
      [.out .certificate "domainValidationOptions[0].resourceRecordValue"]
      (some 60) [],
    provider := none, parent := some .hostedZone }

/-- src/index.ts lines 80-83. -/
def certValidationDecl : Decl :=
  { rid := some .certValidation, declName := "certValidation",
    body := .certificateValidation (.out .certificate "arn")
      [.out .certValidationRecord "fqdn"],
    provider := some .eastRegion, parent := none }

/-- src/index.ts lines 87-156; `loggingConfig.prefix` is the template
literal interpolation of the bucket resource handle followed by a slash. -/
def cdnDecl : Decl :=
  { rid := some .cdn, declName := "cdn",
    body := .distribution
      { enabled := true, aliases := [website],
        originId := .out .borisBucket "arn",
        originDomainName := .out .borisBucket "websiteEndpoint",
        originProtocolPolicy := "http-only",
        defaultRootObject := "index.html",
        targetOriginId := .out .borisBucket "arn",
        viewerProtocolPolicy := "redirect-to-https",
        minTtl := 0, defaultTtl := cacheTimeout, maxTtl := cacheTimeout,
        priceClass := "PriceClass_All",
        errorCode := 404, responseCode := 404, responsePagePath := "/404.html",
        acmCertificateArn := .out .certificate "arn",
        sslSupportMethod := "sni-only",
        loggingBucket := .out .logsBucket "bucketDomainName",
        loggingIncludeCookies := false,
        loggingPrefixVal := .cat (.jsToString .borisBucket) (.lit "/") },
    provider := none, parent := none }

/-- src/index.ts lines 158-167. -/
def apexRecordDecl : Decl :=
  { rid := some .apexRecord, declName := "apexRecord",
    body := .record (.lit website) (.out .hostedZone "zoneId") (.lit "A") [] none
      [{ aliasName := .out .cdn "domainName",
         aliasZoneId := .out .cdn "hostedZoneId",
         evaluateTargetHealth := true }],
    provider := none, parent := none }

/-- The skeleton declarations registered after the crawl, in source order. -/
def skeletonTail : List Decl :=
  [logsBucketDecl, hostedZoneDecl, eastRegionDecl, certificateDecl,
   certValidationRecordDecl, certValidationDecl, cdnDecl, apexRecordDecl]

inductive FsError where
  | enoent
  deriving DecidableEq

/-- One run of the program: the declarations registered with the engine, in
registration order, paired with the error aborting the run, if any.  The
root listing is `none` when the `www` directory does not exist, in which
case `fs.readdirSync` throws after the bucket declaration (line 23) has
already been registered and before any other declaration. -/
def run (cwd : String) (root : Option Forest) : List Decl × Option FsError :=
  match root with
  | none => ([borisBucketDecl], some .enoent)
  | some f =>
      (borisBucketDecl ::
        ((crawlDirectory (wwwDir cwd) f).map (objectDecl (wwwDir cwd)) ++ skeletonTail),
       none)

/-- Whether a declaration is a per-file bucket object. -/
def Decl.isObject : Decl → Bool
  | { body := .bucketObject .., .. } => true
  | _ => false

/-- The storage key of a bucket-object declaration (`""` otherwise). -/
def Decl.objKey : Decl → String
  | { body := .bucketObject k _ _ _ _, .. } => k
  | _ => ""

/-- The content type of a bucket-object declaration (`none` otherwise). -/
def Decl.objContentType : Decl → Option String
  | { body := .bucketObject _ _ _ ct _, .. } => ct
  | _ => none

/-- The source file path of a bucket-object declaration (`""` otherwise). -/
def Decl.objSource : Decl → String
  | { body := .bucketObject _ _ _ _ s, .. } => s
  | _ => ""

/-! ## Crawl and key lemmas -/

theorem strAppend_left_cancel {a x y : String} (h : a ++ x = a ++ y) : x = y := by
  apply String.ext
  have hdata := congrArg String.data h
  simp only [String.data_append] at hdata
  exact List.append_cancel_left hdata

theorem crawlDirectory_eq_map (dir : String) (f : Forest) :
    crawlDirectory dir f = (keysOf f).map (fun k => dir ++ "/" ++ k) := by
  induction f generalizing dir with
  | nil => rfl
  | file n rest ih => simp [crawlDirectory, keysOf, ih]
  | dir n sub rest ihs ihr =>
      simp [crawlDirectory, keysOf, ihs, ihr, List.map_map, Function.comp,
        String.append_assoc]
  | special n rest ih => simp [crawlDirectory, keysOf, ih]

theorem length_keysOf (f : Forest) : (keysOf f).length = countFiles f := by
  induction f with
  | nil => rfl
  | file n rest ih => simp [keysOf, countFiles, ih]
  | dir n sub rest ihs ihr => simp [keysOf, countFiles, ihs, ihr]
  | special n rest ih => simp [keysOf, countFiles, ih]

/-- The segment of a string before its first `/`. -/
def firstSeg (s : String) : String := ⟨s.data.takeWhile (fun c => c ≠ '/')⟩

theorem takeWhile_of_all {α : Type} {p : α → Bool} :
    ∀ l : List α, (∀ a ∈ l, p a = true) → l.takeWhile p = l := by
  intro l h
  induction l with
  | nil => rfl
  | cons c cs ih =>
      rw [List.takeWhile_cons_of_pos (h c (by simp))]
      rw [ih (fun a ha => h a (by simp [ha]))]

theorem firstSeg_slashFree {n : String}
    (h : n.data.all (fun c => c ≠ '/') = true) : firstSeg n = n := by
  apply String.ext
  show n.data.takeWhile _ = n.data
  exact takeWhile_of_all n.data (by simpa [List.all_eq_true] using h)

theorem firstSeg_append {n k : String}
    (h : n.data.all (fun c => c ≠ '/') = true) : firstSeg (n ++ "/" ++ k) = n := by
  apply String.ext
  show ((n ++ "/") ++ k).data.takeWhile _ = n.data
  simp only [String.data_append]
  rw [List.append_assoc]
  rw [List.takeWhile_append_of_pos (by simpa [List.all_eq_true] using h)]
  simp

theorem firstSeg_mem_levelNames {f : Forest} (hc : goodChain f = true) :
    ∀ k ∈ keysOf f, firstSeg k ∈ levelNames f := by
  induction f with
  | nil => intro k hk; simp [keysOf] at hk
  | file n rest ih =>
      intro k hk
      simp only [goodChain, Bool.and_eq_true] at hc
      simp only [keysOf, List.mem_cons] at hk
      rcases hk with rfl | hk
      · rw [firstSeg_slashFree hc.1]
        exact List.mem_cons_self _ _
      · exact List.mem_cons_of_mem _ (ih hc.2 k hk)
  | dir n sub rest ihs ihr =>
      intro k hk
      simp only [goodChain, Bool.and_eq_true] at hc
      obtain ⟨⟨⟨h1, _⟩, _⟩, h4⟩ := hc
      simp only [keysOf, List.mem_append, List.mem_map] at hk
      rcases hk with ⟨k', _, rfl⟩ | hk
      · rw [firstSeg_append h1]
        exact List.mem_cons_self _ _
      · exact List.mem_cons_of_mem _ (ihr h4 k hk)
  | special n rest ih =>
      intro k hk
      simp only [goodChain, Bool.and_eq_true] at hc
      simp only [keysOf] at hk
      exact List.mem_cons_of_mem _ (ih hc.2 k hk)

theorem keysOf_nodup {f : Forest} (hn : (levelNames f).Nodup)
    (hc : goodChain f = true) : (keysOf f).Nodup := by
  induction f with
  | nil => simp [keysOf]
  | file n rest ih =>
      simp only [goodChain, Bool.and_eq_true] at hc
      simp only [levelNames, List.nodup_cons] at hn
      rw [keysOf, List.nodup_cons]
      refine ⟨fun hmem => ?_, ih hn.2 hc.2⟩
      have := firstSeg_mem_levelNames hc.2 n hmem
      rw [firstSeg_slashFree hc.1] at this
      exact hn.1 this
  | dir n sub rest ihs ihr =>
      simp only [goodChain, Bool.and_eq_true] at hc
      obtain ⟨⟨⟨h1, h2⟩, h3⟩, h4⟩ := hc
      simp only [levelNames, List.nodup_cons] at hn
      rw [keysOf, List.nodup_append]
      refine ⟨?_, ihr hn.2 h4, ?_⟩
      · exact (ihs (of_decide_eq_true h2) h3).map
          (fun x y hxy => strAppend_left_cancel (a := n ++ "/") (by
            simpa [String.append_assoc] using hxy))
      · intro a ha hb
        simp only [List.mem_map] at ha
        obtain ⟨k', _, rfl⟩ := ha
        have := firstSeg_mem_levelNames h4 _ hb
        rw [firstSeg_append h1] at this
        exact hn.1 this
  | special n rest ih =>
      simp only [goodChain, Bool.and_eq_true] at hc
      simp only [levelNames, List.nodup_cons] at hn
      rw [keysOf]
      exact ih hn.2 hc.2

theorem good_keysOf_nodup {f : Forest} (hg : good f = true) : (keysOf f).Nodup := by
  simp only [good, Bool.and_eq_true] at hg
  exact keysOf_nodup (of_decide_eq_true hg.1) hg.2

theorem segPathsOf_ne_nil {f : Forest} : ∀ p ∈ segPathsOf f, p ≠ [] := by
  induction f with
  | nil => intro p hp; simp [segPathsOf] at hp
  | file n rest ih =>
      intro p hp
      simp only [segPathsOf, List.mem_cons] at hp
      rcases hp with rfl | hp
      · simp
      · exact ih p hp
  | dir n sub rest ihs ihr =>
      intro p hp
      simp only [segPathsOf, List.mem_append, List.mem_map] at hp
      rcases hp with ⟨q, _, rfl⟩ | hp
      · simp
      · exact ihr p hp
  | special n rest ih =>
      intro p hp
      simp only [segPathsOf] at hp
      exact ih p hp

theorem keysOf_eq_join (f : Forest) : keysOf f = (segPathsOf f).map joinSegs := by
  induction f with
  | nil => rfl
  | file n rest ih => simp [keysOf, segPathsOf, ih, joinSegs]
  | dir n sub rest ihs ihr =>
      simp only [keysOf, segPathsOf, List.map_append, List.map_map, ihs, ihr]
      congr 1
      apply List.map_congr_left
      intro p hp
      have hne := segPathsOf_ne_nil p hp
      match p, hne with
      | x :: xs, _ => simp [joinSegs]
  | special n rest ih => simp [keysOf, segPathsOf, ih]

theorem keysOf_no_leading_slash {f : Forest} (hc : goodChain f = true)
    (hne : nonemptyNames f = true) :
    ∀ k ∈ keysOf f, k.data.head? ≠ some '/' := by
  induction f with
  | nil => intro k hk; simp [keysOf] at hk
  | file n rest ih =>
      intro k hk
      simp only [goodChain, Bool.and_eq_true] at hc
      simp only [nonemptyNames, Bool.and_eq_true] at hne
      simp only [keysOf, List.mem_cons] at hk
      rcases hk with rfl | hk
      · match hd : k.data with
        | [] => simp
        | c :: cs =>
            have hcmem : c ∈ k.data := by rw [hd]; simp
            have := (List.all_eq_true.mp hc.1) c hcmem
            simp only [decide_eq_true_eq] at this
            simp [this]
      · exact ih hc.2 hne.2 k hk
  | dir n sub rest ihs ihr =>
      intro k hk
      simp only [goodChain, Bool.and_eq_true] at hc
      obtain ⟨⟨⟨h1, _⟩, _⟩, h4⟩ := hc
      simp only [nonemptyNames, Bool.and_eq_true] at hne
      obtain ⟨⟨hn1, _⟩, hn3⟩ := hne
      simp only [keysOf, List.mem_append, List.mem_map] at hk
      rcases hk with ⟨k', _, rfl⟩ | hk
      · have hnd : n.data ≠ [] := by
          intro habs
          exact (of_decide_eq_true hn1) (String.ext habs)
        match hd : n.data with
        | [] => exact absurd hd hnd
        | c :: cs =>
            have hcmem : c ∈ n.data := by rw [hd]; simp
            have hcne := (List.all_eq_true.mp h1) c hcmem
            simp only [decide_eq_true_eq] at hcne
            show ((n ++ "/") ++ k').data.head? ≠ some '/'
            simp only [String.data_append, hd]
            simp [hcne]
      · exact ihr h4 hn3 k hk
  | special n rest ih =>
      intro k hk
      simp only [goodChain, Bool.and_eq_true] at hc
      simp only [nonemptyNames, Bool.and_eq_true] at hne
      simp only [keysOf] at hk
      exact ih hc.2 hne.2 k hk

/-! ## Run-level lemmas -/

theorem objectDecl_isObject (w p : String) : (objectDecl w p).isObject = true := rfl

theorem skeletonTail_no_object : skeletonTail.filter Decl.isObject = [] := rfl

theorem filter_isObject_run (cwd : String) (f : Forest) :
    (run cwd (some f)).1.filter Decl.isObject
      = (crawlDirectory (wwwDir cwd) f).map (objectDecl (wwwDir cwd)) := by
  show (borisBucketDecl ::
      ((crawlDirectory (wwwDir cwd) f).map (objectDecl (wwwDir cwd)) ++ skeletonTail)).filter
        Decl.isObject = _
  rw [List.filter_cons_of_neg (by decide), List.filter_append, skeletonTail_no_object,
    List.append_nil]
  exact List.filter_eq_self.mpr (by
    intro a ha
    obtain ⟨p, _, rfl⟩ := List.mem_map.mp ha
    rfl)

theorem wwwDir_slash_ne (cwd : String) : wwwDir cwd ++ "/" ≠ "" := by
  intro h
  have := congrArg String.data h
  simp [String.data_append] at this

theorem objKey_objectDecl (w k : String) :
    (objectDecl w (w ++ "/" ++ k)).objKey = k := by
  show jsReplaceFirst (w ++ "/" ++ k) (w ++ "/") "" = k
  exact jsReplaceFirst_prefix (w ++ "/") k (by
    intro h
    have := congrArg String.data h
    simp [String.data_append] at this)

theorem run_objKeys (cwd : String) (f : Forest) :
    ((run cwd (some f)).1.filter Decl.isObject).map Decl.objKey = keysOf f := by
  rw [filter_isObject_run, crawlDirectory_eq_map]
  simp only [List.map_map]
  conv_rhs => rw [← List.map_id (keysOf f)]
  apply List.map_congr_left
  intro k _
  simp only [Function.comp_apply, id_eq]
  exact objKey_objectDecl (wwwDir cwd) k

theorem isObject_of_body {d : Decl} {k a : String} {b : Res} {ct : Option String}
    {s : String} (h : d.body = .bucketObject k a b ct s) : d.isObject = true := by
  cases d with
  | mk rid nm body prov par =>
      cases body <;> simp_all [Decl.isObject]

theorem mem_run_object {cwd : String} {f : Forest} {d : Decl}
    (hd : d ∈ (run cwd (some f)).1) (hobj : d.isObject = true) :
    ∃ p ∈ crawlDirectory (wwwDir cwd) f, d = objectDecl (wwwDir cwd) p := by
  have hsk : ∀ e ∈ skeletonTail, e.isObject = false := by decide
  simp only [run, List.mem_cons, List.mem_append, List.mem_map] at hd
  rcases hd with rfl | ⟨p, hp, rfl⟩ | hd
  · exact absurd hobj (by decide)
  · exact ⟨p, hp, rfl⟩
  · rw [hsk d hd] at hobj
    exact absurd hobj (by simp)

theorem lookup_val_ne_empty {l : List (String × String)}
    (hl : ∀ q ∈ l, q.2 ≠ "") : ∀ e t, l.lookup e = some t → t ≠ "" := by
  induction l with
  | nil => intro e t h; simp [List.lookup] at h
  | cons hd tl ih =>
      intro e t h
      cases hd with
      | mk k v =>
          simp only [List.lookup] at h
          split at h
          · cases h
            exact hl (k, t) (by simp)
          · exact ih (fun q hq => hl q (by simp [hq])) e t h

theorem mimeTypes_val_ne_empty : ∀ e t, mimeTypes.lookup e = some t → t ≠ "" :=
  lookup_val_ne_empty (by decide)

/-! ## Claim theorems -/

/-- The end-to-end scenario listing: `index.html`, `404.html`, `css/site.css`. -/
def scenarioForest : Forest :=
  .file "index.html" (.file "404.html" (.dir "css" (.file "site.css" .nil) .nil))

/-- C1: graph construction produces exactly one bucket-object declaration
per regular file under the asset root (directories produce none), and with
filesystem-valid names (unique within each directory, slash-free) the
relative keys of the object declarations are pairwise distinct. -/
theorem crawl_object_count_and_key_nodup (cwd : String) (f : Forest) :
    ((run cwd (some f)).1.filter Decl.isObject).length = countFiles f ∧
    (good f = true →
      (((run cwd (some f)).1.filter Decl.isObject).map Decl.objKey).Nodup) := by
  constructor
  · rw [filter_isObject_run, List.length_map, crawlDirectory_eq_map, List.length_map,
      length_keysOf]
  · intro hg
    rw [run_objKeys]
    exact good_keysOf_nodup hg

theorem crawl_object_count_and_key_nodup_witness :
    ((run "/app" (some scenarioForest)).1.filter Decl.isObject).length
        = countFiles scenarioForest ∧
    (((run "/app" (some scenarioForest)).1.filter Decl.isObject).map Decl.objKey).Nodup :=
  ⟨(crawl_object_count_and_key_nodup "/app" scenarioForest).1,
   (crawl_object_count_and_key_nodup "/app" scenarioForest).2 (by decide)⟩

/-- C2: every object declaration's storage key is the file's path relative
to the asset root joined with forward slashes, and (for filesystem-valid,
nonempty names) carries no leading separator. -/
theorem object_keys_are_relative_paths (cwd : String) (f : Forest) :
    ((run cwd (some f)).1.filter Decl.isObject).map Decl.objKey
      = (segPathsOf f).map joinSegs ∧
    (good f = true → nonemptyNames f = true →
      ∀ k ∈ ((run cwd (some f)).1.filter Decl.isObject).map Decl.objKey,
        k.data.head? ≠ some '/') := by
  constructor
  · rw [run_objKeys, keysOf_eq_join]
  · intro hg hne k hk
    rw [run_objKeys] at hk
    simp only [good, Bool.and_eq_true] at hg
    exact keysOf_no_leading_slash hg.2 hne k hk

theorem object_keys_are_relative_paths_witness :
    ((run "/app" (some scenarioForest)).1.filter Decl.isObject).map Decl.objKey
      = (segPathsOf scenarioForest).map joinSegs ∧
    ("css/site.css" : String).data.head? ≠ some '/' :=
  ⟨(object_keys_are_relative_paths "/app" scenarioForest).1,
   (object_keys_are_relative_paths "/app" scenarioForest).2 (by decide) (by decide)
     "css/site.css" (by decide)⟩

/-- C3: each object declaration's content type is the registered media type
of the file's extension when the basename has a proper dot-separated
extension found in the table, and is left unset (`none`) when the extension
is unrecognized — never a guessed default. -/
theorem object_content_type_lookup (cwd : String) (f : Forest) :
    ∀ d ∈ (run cwd (some f)).1, ∀ k a b ct s,
      d.body = DeclBody.bucketObject k a b ct s →
      (mimeHasDot s = true → ct = mimeTypes.lookup (mimeExt s)) ∧
      (mimeTypes.lookup (mimeExt s) = none → ct = none) := by
  intro d hd k a b ct s hbody
  obtain ⟨p, _, rfl⟩ := mem_run_object hd (isObject_of_body hbody)
  have hcts : ct = jsOrUndefined (mimeGetType p) ∧ s = p := by
    simp only [objectDecl, DeclBody.bucketObject.injEq] at hbody
    exact ⟨hbody.2.2.2.1.symm, hbody.2.2.2.2.symm⟩
  obtain ⟨rfl, rfl⟩ := hcts
  constructor
  · intro hdot
    rw [mimeGetType, if_pos (by simp [hdot])]
    cases hlk : mimeTypes.lookup (mimeExt s) with
    | none => rfl
    | some t =>
        have := mimeTypes_val_ne_empty (mimeExt s) t hlk
        simp [jsOrUndefined, this]
  · intro hnone
    rw [mimeGetType]
    split
    · rw [hnone]; rfl
    · rfl

theorem object_content_type_lookup_witness :
    (some "text/html" : Option String)
        = mimeTypes.lookup (mimeExt "/app/www/index.html") :=
  (object_content_type_lookup "/app" scenarioForest
      (objectDecl (wwwDir "/app") "/app/www/index.html") (by decide)
      "index.html" "public-read" .borisBucket (some "text/html")
      "/app/www/index.html" (by decide)).1 (by decide)

/-- C4 counterexample: with a missing asset root the run does fail with a
filesystem error, but the declaration list registered before the error is
not empty — the bucket declaration (src/index.ts line 23) is constructed
before the crawl (line 33) throws, refuting "no declarations registered
before the error". -/
theorem bucket_registered_before_missing_root_error :
    (run "/app" none).2 = some FsError.enoent ∧ (run "/app" none).1 ≠ [] := by
  decide

/-- C4 (amended): with a missing asset root the run fails with a filesystem
error; no object declaration and no further skeleton declaration is
registered — the storage-bucket declaration, constructed before traversal,
is the only declaration registered before the error. -/
theorem missing_root_fails_after_bucket_only (cwd : String) :
    (run cwd none).2 = some FsError.enoent ∧
    (run cwd none).1 = [borisBucketDecl] ∧
    (run cwd none).1.filter Decl.isObject = [] :=
  ⟨rfl, rfl, rfl⟩

/-- C5 counterexample: in the end-to-end scenario the non-object (skeleton)
declarations number 9, not 7. -/
theorem skeleton_count_is_not_seven :
    ((run "/app" (some scenarioForest)).1.filter (fun d => !d.isObject)).length ≠ 7 := by
  decide

/-- C5 (amended): the scenario directory yields exactly 3 object
declarations with keys `index.html`, `404.html`, `css/site.css`, content
types `text/html`, `text/html`, `text/css`, each with the storage bucket
as parent, plus exactly 9 fixed skeleton declarations (bucket, logging
bucket, zone, regional provider alias, certificate, validation record,
validation completion, distribution, alias record). -/
theorem scenario_build_contents :
    ((run "/app" (some scenarioForest)).1.filter Decl.isObject).map Decl.objKey
        = ["index.html", "404.html", "css/site.css"] ∧
    ((run "/app" (some scenarioForest)).1.filter Decl.isObject).map Decl.objContentType
        = [some "text/html", some "text/html", some "text/css"] ∧
    ((run "/app" (some scenarioForest)).1.filter Decl.isObject).map Decl.parent
        = [some Res.borisBucket, some Res.borisBucket, some Res.borisBucket] ∧
    ((run "/app" (some scenarioForest)).1.filter (fun d => !d.isObject)).length = 9 ∧
    ((run "/app" (some scenarioForest)).1.filter (fun d => !d.isObject)).map Decl.rid
        = [some Res.borisBucket, some Res.logsBucket, some Res.hostedZone,
           some Res.eastRegion, some Res.certificate, some Res.certValidationRecord,
           some Res.certValidation, some Res.cdn, some Res.apexRecord] := by
  refine ⟨?_, ?_, ?_, ?_, ?_⟩ <;> decide

/-- C6: among all registered declarations, exactly the certificate and its
validation completion carry the explicit `us-east-1` provider alias; every
other declaration carries no provider option (the default region), and the
alias itself is pinned to `us-east-1`. -/
theorem east_region_only_for_certificate (cwd : String) (f : Forest) :
    ∀ d ∈ (run cwd (some f)).1,
      ((d.provider = some Res.eastRegion) ↔
        (d.rid = some Res.certificate ∨ d.rid = some Res.certValidation)) ∧
      (d.rid = some Res.eastRegion → d.body = DeclBody.provider "us-east-1") := by
  intro d hd
  have hsk : ∀ e ∈ skeletonTail,
      ((e.provider = some Res.eastRegion) ↔
        (e.rid = some Res.certificate ∨ e.rid = some Res.certValidation)) ∧
      (e.rid = some Res.eastRegion → e.body = DeclBody.provider "us-east-1") := by
    decide
  simp only [run, List.mem_cons, List.mem_append, List.mem_map] at hd
  rcases hd with rfl | ⟨p, _, rfl⟩ | hd
  · exact ⟨by decide, by decide⟩
  · exact ⟨by simp [objectDecl], by simp [objectDecl]⟩
  · exact hsk d hd

theorem east_region_only_for_certificate_witness :
    ((certificateDecl.provider = some Res.eastRegion) ↔
      (certificateDecl.rid = some Res.certificate ∨
        certificateDecl.rid = some Res.certValidation)) ∧
    (certificateDecl.rid = some Res.eastRegion →
      certificateDecl.body = DeclBody.provider "us-east-1") :=
  east_region_only_for_certificate "/app" scenarioForest certificateDecl (by decide)

/-- Whether a declaration is the certificate validation record: a Route53
record whose name, type and value are the certificate's first
domain-validation option. -/
def isCertValidationRecordDecl (d : Decl) : Bool :=
  match d.body with
  | .record n _ t rs _ _ =>
      n == SVal.out .certificate "domainValidationOptions[0].resourceRecordName"
        && t == SVal.out .certificate "domainValidationOptions[0].resourceRecordType"
        && rs == [SVal.out .certificate "domainValidationOptions[0].resourceRecordValue"]
  | _ => false

/-- Whether a declaration is a DNS alias record whose alias target is the
distribution's domain name. -/
def isApexAliasDecl (d : Decl) : Bool :=
  match d.body with
  | .record _ _ _ _ _ als => als.any (fun a => a.aliasName == SVal.out .cdn "domainName")
  | _ => false

/-- C7: every constructed graph contains exactly one certificate validation
record derived from the certificate's first domain-validation option, and
exactly one DNS alias record targeting the distribution's domain name. -/
theorem unique_validation_and_alias_records (cwd : String) (f : Forest) :
    (run cwd (some f)).1.countP isCertValidationRecordDecl = 1 ∧
    (run cwd (some f)).1.countP isApexAliasDecl = 1 := by
  have hobj1 : ((crawlDirectory (wwwDir cwd) f).map
      (objectDecl (wwwDir cwd))).countP isCertValidationRecordDecl = 0 := by
    apply List.countP_eq_zero.mpr
    intro a ha
    obtain ⟨p, _, rfl⟩ := List.mem_map.mp ha
    simp [isCertValidationRecordDecl, objectDecl]
  have hobj2 : ((crawlDirectory (wwwDir cwd) f).map
      (objectDecl (wwwDir cwd))).countP isApexAliasDecl = 0 := by
    apply List.countP_eq_zero.mpr
    intro a ha
    obtain ⟨p, _, rfl⟩ := List.mem_map.mp ha
    simp [isApexAliasDecl, objectDecl]
  constructor
  · show (borisBucketDecl :: (_ ++ skeletonTail)).countP isCertValidationRecordDecl = 1
    rw [List.countP_cons, List.countP_append, hobj1]
    decide
  · show (borisBucketDecl :: (_ ++ skeletonTail)).countP isApexAliasDecl = 1
    rw [List.countP_cons, List.countP_append, hobj2]
    decide

/-! ## Relational semantics for determinism -/

/-- Relational presentation of `crawlDirectory`: `Crawls dir f out` holds
when crawling listing `f` under path `dir` invokes the callback on exactly
the paths `out`, in order. -/
inductive Crawls : String → Forest → List String → Prop where
  | nilStep (dir : String) : Crawls dir .nil []
  | fileStep (dir n : String) (rest : Forest) (out : List String) :
      Crawls dir rest out → Crawls dir (.file n rest) ((dir ++ "/" ++ n) :: out)
  | dirStep (dir n : String) (sub rest : Forest) (subOut out : List String) :
      Crawls (dir ++ "/" ++ n) sub subOut → Crawls dir rest out →
      Crawls dir (.dir n sub rest) (subOut ++ out)
  | specialStep (dir n : String) (rest : Forest) (out : List String) :
      Crawls dir rest out → Crawls dir (.special n rest) out

/-- Relational presentation of one program run: the registered declaration
list together with the aborting error, if any. -/
inductive Builds : String → Option Forest → List Decl × Option FsError → Prop where
  | missingRoot (cwd : String) : Builds cwd none ([borisBucketDecl], some .enoent)
  | ok (cwd : String) (f : Forest) (paths : List String) :
      Crawls (wwwDir cwd) f paths →
      Builds cwd (some f)
        (borisBucketDecl :: (paths.map (objectDecl (wwwDir cwd)) ++ skeletonTail), none)

theorem crawls_deterministic {dir : String} {f : Forest} {o1 o2 : List String}
    (h1 : Crawls dir f o1) (h2 : Crawls dir f o2) : o1 = o2 := by
  induction h1 generalizing o2 with
  | nilStep => cases h2; rfl
  | fileStep dir n rest out hr ih =>
      cases h2 with
      | fileStep _ _ _ out' hr' => rw [ih hr']
  | dirStep dir n sub rest subOut out hs hr ihs ihr =>
      cases h2 with
      | dirStep _ _ _ _ subOut' out' hs' hr' => rw [ihs hs', ihr hr']
  | specialStep dir n rest out hr ih =>
      cases h2 with
      | specialStep _ _ _ out' hr' => exact ih hr'

theorem crawls_crawlDirectory (f : Forest) :
    ∀ dir, Crawls dir f (crawlDirectory dir f) := by
  induction f with
  | nil => intro dir; exact .nilStep dir
  | file n rest ih => intro dir; exact .fileStep dir n rest _ (ih dir)
  | dir n sub rest ihs ihr =>
      intro dir
      exact .dirStep dir n sub rest _ _ (ihs (dir ++ "/" ++ n)) (ihr dir)
  | special n rest ih => intro dir; exact .specialStep dir n rest _ (ih dir)

theorem builds_run (cwd : String) (f : Forest) :
    Builds cwd (some f) (run cwd (some f)) :=
  Builds.ok cwd f (crawlDirectory (wwwDir cwd) f)
    (crawls_crawlDirectory f (wwwDir cwd))

/-- C8: graph construction is deterministic — two runs over the same
unchanged directory listing produce identical declaration sets (hence the
same keys, content types and cross-references); the only input is the
listing, with no construction-time randomness. -/
theorem build_deterministic (cwd : String) (root : Option Forest)
    (o1 o2 : List Decl × Option FsError)
    (h1 : Builds cwd root o1) (h2 : Builds cwd root o2) : o1 = o2 := by
  cases h1 with
  | missingRoot =>
      cases h2 with
      | missingRoot => rfl
  | ok _ paths hc =>
      cases h2 with
      | ok _ paths' hc' => rw [crawls_deterministic hc hc']

theorem build_deterministic_witness :
    run "/app" (some scenarioForest) = run "/app" (some scenarioForest) :=
  build_deterministic "/app" (some scenarioForest) _ _
    (builds_run "/app" scenarioForest) (builds_run "/app" scenarioForest)

/-- The symbolic logging-configuration prefix of a distribution declaration. -/
def Decl.distLoggingPrefixVal : Decl → Option SVal
  | { body := .distribution d, .. } => some d.loggingPrefixVal
  | _ => none

/-- C9: the distribution's logging prefix is the template-literal string
interpolation of the bucket resource handle followed by a slash — not any
output property of the bucket (its name, its domain, ...) and not a string
literal. -/
theorem logging_prefix_is_resource_interpolation :
    cdnDecl.distLoggingPrefixVal
        = some (SVal.cat (SVal.jsToString .borisBucket) (SVal.lit "/")) ∧
    ∀ fld : String,
      cdnDecl.distLoggingPrefixVal ≠ some (SVal.out .borisBucket fld) ∧
      cdnDecl.distLoggingPrefixVal ≠ some (SVal.lit fld) := by
  refine ⟨rfl, ?_⟩
  intro fld
  constructor <;> simp [cdnDecl, Decl.distLoggingPrefixVal]

/-- A forest with all `special` entries removed, at every level. -/
def removeSpecials : Forest → Forest
  | .nil => .nil
  | .file n rest => .file n (removeSpecials rest)
  | .dir n sub rest => .dir n (removeSpecials sub) (removeSpecials rest)
  | .special _ rest => removeSpecials rest

theorem crawl_removeSpecials (f : Forest) :
    ∀ dir, crawlDirectory dir (removeSpecials f) = crawlDirectory dir f := by
  induction f with
  | nil => intro dir; rfl
  | file n rest ih => intro dir; simp [removeSpecials, crawlDirectory, ih]
  | dir n sub rest ihs ihr =>
      intro dir; simp [removeSpecials, crawlDirectory, ihs, ihr]
  | special n rest ih => intro dir; simp [removeSpecials, crawlDirectory, ih]

/-- C10: a special entry (stat reports neither directory nor regular file)
contributes no callback invocation, is not recursed into, and does not
abort the crawl: a listing crawls to exactly what it crawls to with all
special entries removed, and the run still completes without error. -/
theorem special_entries_skipped (dir n cwd : String) (rest f : Forest) :
    crawlDirectory dir (.special n rest) = crawlDirectory dir rest ∧
    crawlDirectory dir (removeSpecials f) = crawlDirectory dir f ∧
    (run cwd (some f)).2 = none :=
  ⟨rfl, crawl_removeSpecials f dir, rfl⟩
